import Mathlib

/-!
# Verification of the NID_OCR field extractor and box renderer

A shallow embedding, in Lean 4, of the two Python source files of the
NID_OCR repository:

* `nid_ocr.py` — `extract_nid_fields`: maps an ordered sequence of OCR
  lines (each a `text`/`bbox` record) to six optional field records.
* `draw_nid_boxes.py` — `draw_boxes_on_image` and the filename
  conventions of `main`: clamping, cropping and drawing of field boxes.

Conventions of the embedding:

* Python strings are Lean `String`s; `None` text is `Option.none`.
* A raised Python exception is modelled by `Option.none` at the result
  type of the translated function (the only raising sites reachable in
  `extract_nid_fields` are the two unguarded `lines[i+1].text.strip()`
  expressions, which raise `AttributeError` when that `text` is `None`).
* Python's `\s` character class and `str.strip`/`str.lower` are modelled
  on the ASCII range (space, TAB, LF, VT, FF, CR; letters A–Z).  The
  repository's patterns and labels only involve ASCII letters, `:` and
  spaces, so nothing in the claims depends on the non-ASCII part of the
  Unicode tables.
* Regular expressions are modelled by hand-rolled matchers: each of the
  three label patterns is a sequence of case-insensitive literals and
  whitespace classes, for which greedy matching needs no backtracking
  (no whitespace character can start the literal that follows).
-/

namespace NIDOCR

/-! ## Data model -/

/-- One OCR line: `text` may be Python `None`; `bbox = [x_min, y_min, x_max, y_max]`. -/
structure OCRLine where
  text : Option String
  bbox : List Int
deriving DecidableEq, Repr

/-- A present field value: the stored `{"bbox": ..., "text": ...}` record. -/
structure FieldRec where
  bbox : List Int
  text : String
deriving DecidableEq, Repr

/-- The fixed six-slot output record of `extract_nid_fields`. -/
structure NIDFields where
  english_name : Option FieldRec
  bangla_name : Option FieldRec
  father_name : Option FieldRec
  mother_name : Option FieldRec
  date_of_birth : Option FieldRec
  id_no : Option FieldRec
deriving DecidableEq, Repr

/-- The initial all-`None` output dictionary (`out = {...: None}`). -/
def initFields : NIDFields := ⟨none, none, none, none, none, none⟩

/-! ## Python string primitives -/

/-- Python's `\s` class / `str.strip` whitespace, restricted to ASCII:
space, TAB, LF, VT, FF, CR. -/
def isPySpace (c : Char) : Bool :=
  c = ' ' || c = '\t' || c = '\n' || c.toNat = 11 || c.toNat = 12 || c.toNat = 13

/-- ASCII `str.lower` on one character. -/
def pyLower (c : Char) : Char :=
  if 'A' ≤ c && c ≤ 'Z' then Char.ofNat (c.toNat + 32) else c

/-- `str.strip()` on a character list: drop leading and trailing whitespace. -/
def stripL (l : List Char) : List Char :=
  ((l.dropWhile isPySpace).reverse.dropWhile isPySpace).reverse

/-- `str.strip()`. -/
def pyStrip (s : String) : String := String.mk (stripL s.data)

/-- `str.lower()`. -/
def pyLowerStr (s : String) : String := String.mk (s.data.map pyLower)

/-- `(t or "")` for an optional string: Python's `None`/empty-string coalescing. -/
def textOr (t : Option String) : String := t.getD ""

/-- Does `pat` occur contiguously in `hay`?  (Python's `pat in hay`.) -/
def containsSeq (pat : List Char) : List Char → Bool
  | [] => pat.isEmpty
  | c :: t => pat.isPrefixOf (c :: t) || containsSeq pat t

/-- Python `sub in s` on strings. -/
def pyIn (sub s : String) : Bool := containsSeq sub.data s.data

/-- The part of `l` after the first occurrence of `sep`
(`l.split(sep, 1)[-1]` — only used where `sep` is known to occur). -/
def afterFirst (sep : List Char) : List Char → List Char
  | [] => []
  | c :: t => if sep.isPrefixOf (c :: t) then (c :: t).drop sep.length else afterFirst sep t

/-! ## The three label regexes

`NAME_PREFIX = ^Name:\s*` (anchored), `DOB_PREFIX = Date\s+of\s+Birth:\s*`
and `IDNO_PREFIX = ID\s+NO:\s*` (unanchored), all with `re.I`.
A matcher takes the suffix to match at and returns the rest after the
match, or `none`. -/

/-- Match a lowercase literal case-insensitively at the head. -/
def matchCI : List Char → List Char → Option (List Char)
  | [], s => some s
  | _ :: _, [] => none
  | k :: ks, c :: cs => if pyLower c = k then matchCI ks cs else none

/-- Greedy `\s*`. -/
def wsMunch (s : List Char) : List Char := s.dropWhile isPySpace

/-- Greedy `\s+`. -/
def ws1 : List Char → Option (List Char)
  | [] => none
  | c :: cs => if isPySpace c then some (wsMunch cs) else none

/-- `Name:\s*` at the current position. -/
def matchNameAt (s : List Char) : Option (List Char) :=
  (matchCI "name:".data s).map wsMunch

/-- `Date\s+of\s+Birth:\s*` at the current position. -/
def matchDobAt (s : List Char) : Option (List Char) := do
  let s ← matchCI "date".data s
  let s ← ws1 s
  let s ← matchCI "of".data s
  let s ← ws1 s
  let s ← matchCI "birth:".data s
  some (wsMunch s)

/-- `ID\s+NO:\s*` at the current position. -/
def matchIdnoAt (s : List Char) : Option (List Char) := do
  let s ← matchCI "id".data s
  let s ← ws1 s
  let s ← matchCI "no:".data s
  some (wsMunch s)

/-- `re.search` for an unanchored pattern: try every start position. -/
def searchAnywhere (m : List Char → Option (List Char)) : List Char → Bool
  | [] => (m []).isSome
  | c :: cs => (m (c :: cs)).isSome || searchAnywhere m cs

/-- `re.sub(pat, "", s)` for an unanchored consuming pattern: scan left to
right, delete each match and continue after it.  `fuel` bounds the
recursion; every matcher used consumes at least one character, so
`fuel = s.length` is always enough. -/
def subAllF (m : List Char → Option (List Char)) : Nat → List Char → List Char
  | _, [] => []
  | 0, s => s
  | fuel + 1, c :: cs =>
    match m (c :: cs) with
    | some rest => subAllF m fuel rest
    | none => c :: subAllF m fuel cs

/-- `NAME_PREFIX.search(text)`: the pattern is anchored at the start. -/
def nameMatches (s : String) : Bool := (matchNameAt s.data).isSome

/-- `DOB_PREFIX.search(text)`. -/
def dobMatches (s : String) : Bool := searchAnywhere matchDobAt s.data

/-- `IDNO_PREFIX.search(text)`. -/
def idnoMatches (s : String) : Bool := searchAnywhere matchIdnoAt s.data

/-- `NAME_PREFIX.sub("", text)`: the `^` anchor can only match at
position 0, so at most the leading occurrence is deleted. -/
def nameSubst (s : String) : String :=
  match matchNameAt s.data with
  | some r => String.mk r
  | none => s

/-- `DOB_PREFIX.sub("", text)`: every non-overlapping occurrence is deleted. -/
def dobSubst (s : String) : String := String.mk (subAllF matchDobAt s.data.length s.data)

/-- `IDNO_PREFIX.sub("", text)`. -/
def idnoSubst (s : String) : String := String.mk (subAllF matchIdnoAt s.data.length s.data)

/-! ## Bengali labels and helper predicates -/

/-- `BANGLA_NAME_LABEL` (`নাম:`). -/
def BANGLA_NAME_LABEL : String := "নাম:"

/-- `BANGLA_FATHER` (`পিতা:`). -/
def BANGLA_FATHER : String := "পিতা:"

/-- `BANGLA_MOTHER` (`মাতা:`). -/
def BANGLA_MOTHER : String := "মাতা:"

/-- `has_bengali`: any code point in the Bengali block U+0980–U+09FF. -/
def has_bengali (s : String) : Bool :=
  s.data.any (fun c => 0x0980 ≤ c.toNat && c.toNat ≤ 0x09FF)

/-- `is_header_line`: case-insensitive English keywords, or either literal
Bengali header substring (`জাতীয়`, `গণপ্রজাতন্ত্রী`, exactly the code-point
sequences of the source file). -/
def is_header_line (s : String) : Bool :=
  pyIn "government" (pyLowerStr s) || pyIn "republic" (pyLowerStr s) ||
  pyIn "national id" (pyLowerStr s) ||
  pyIn "জাতীয়" s ||
  pyIn "গণপ্রজাতন্ত্রী" s

/-! ## The extractor, line by line -/

/-- `lines[i]` with an inert default (never read in range). -/
def lineAt (lines : List OCRLine) (i : Nat) : OCRLine := lines.getD i ⟨none, []⟩

/-- `text = (line.text or "").strip()` for line `i`. -/
def stripText (lines : List OCRLine) (i : Nat) : String :=
  pyStrip (textOr (lineAt lines i).text)

/-- The per-line, per-field outcome: `some r` when the line's rule stores
record `r` into its slot, `none` when the slot is left as it was. -/
def applyHit (h cur : Option FieldRec) : Option FieldRec :=
  match h with
  | some r => some r
  | none => cur

/-- The english-name rule of line `i` (`if NAME_PREFIX.search(text): ...`). -/
def hitEnglish (lines : List OCRLine) (i : Nat) : Option FieldRec :=
  let t := stripText lines i
  if nameMatches t then some ⟨(lineAt lines i).bbox, pyStrip (nameSubst t)⟩ else none

/-- The date-of-birth rule of line `i`. -/
def hitDob (lines : List OCRLine) (i : Nat) : Option FieldRec :=
  let t := stripText lines i
  if dobMatches t then some ⟨(lineAt lines i).bbox, pyStrip (dobSubst t)⟩ else none

/-- The id-no rule of line `i`. -/
def hitIdno (lines : List OCRLine) (i : Nat) : Option FieldRec :=
  let t := stripText lines i
  if idnoMatches t then some ⟨(lineAt lines i).bbox, pyStrip (idnoSubst t)⟩ else none

/-- The father-name rule of line `i`.  The outer `Option` models the
exception: `lines[i+1].text.strip()` is *not* `None`-guarded in the
source, so a `None` next-line text raises (`none`). -/
def hitFather (lines : List OCRLine) (i : Nat) : Option (Option FieldRec) :=
  let t := stripText lines i
  if pyIn BANGLA_FATHER t then
    let afterL := pyStrip (String.mk (afterFirst BANGLA_FATHER.data t.data))
    if afterL ≠ "" then some (some ⟨(lineAt lines i).bbox, afterL⟩)
    else if i + 1 < lines.length then
      match (lineAt lines (i + 1)).text with
      | none => none
      | some s => some (some ⟨(lineAt lines i).bbox, pyStrip s⟩)
    else some (some ⟨(lineAt lines i).bbox, ""⟩)
  else some none

/-- The mother-name rule of line `i`: same-line value, else previous line
(text *and* bbox), else next line.  As for the father rule, the final
fallback reads `lines[i+1].text.strip()` unguarded. -/
def hitMother (lines : List OCRLine) (i : Nat) : Option (Option FieldRec) :=
  let t := stripText lines i
  if pyIn BANGLA_MOTHER t then
    let afterL := pyStrip (String.mk (afterFirst BANGLA_MOTHER.data t.data))
    if afterL ≠ "" then some (some ⟨(lineAt lines i).bbox, afterL⟩)
    else if 0 < i ∧ pyStrip (textOr (lineAt lines (i - 1)).text) ≠ "" then
      some (some ⟨(lineAt lines (i - 1)).bbox, pyStrip (textOr (lineAt lines (i - 1)).text)⟩)
    else if i + 1 < lines.length then
      match (lineAt lines (i + 1)).text with
      | none => none
      | some s => some (some ⟨(lineAt lines i).bbox, pyStrip s⟩)
    else some (some ⟨(lineAt lines i).bbox, ""⟩)
  else some none

/-- The backward scan of the bangla-name rule
(`for j in range(i - 1, -1, -1)` with `break` at the first candidate):
called with `i`, inspects `i - 1, i - 2, ..., 0` and returns the first
index whose stripped text is non-empty, Bengali, and not a header. -/
def backCand (lines : List OCRLine) : Nat → Option Nat
  | 0 => none
  | j + 1 =>
    let prev := stripText lines j
    if prev ≠ "" && has_bengali prev && !is_header_line prev then some j
    else backCand lines j

/-- The next-line attempt of the bangla-name rule
(`if not bangla_found and i + 1 < len(lines)`). -/
def nextTry (lines : List OCRLine) (i : Nat) : Option FieldRec :=
  if i + 1 < lines.length then
    let nxt := stripText lines (i + 1)
    if nxt ≠ "" && has_bengali nxt && !nameMatches nxt then
      some ⟨(lineAt lines (i + 1)).bbox, nxt⟩
    else none
  else none

/-- The bangla-name rule of line `i`: first candidate of the backward
scan, accepted only if colon-free and not an English `Name:` line; on
no acceptance, the next-line attempt. -/
def hitBangla (lines : List OCRLine) (i : Nat) : Option FieldRec :=
  let t := stripText lines i
  if pyIn BANGLA_NAME_LABEL t then
    match backCand lines i with
    | some j =>
      let prev := stripText lines j
      if !pyIn ":" prev && !nameMatches prev then some ⟨(lineAt lines j).bbox, prev⟩
      else nextTry lines i
    | none => nextTry lines i
  else none

/-- One iteration of the `for i, line in enumerate(lines)` body: the six
rules in source order; the father and mother rules can raise. -/
def processLine (lines : List OCRLine) (i : Nat) (out : NIDFields) : Option NIDFields := do
  let fa ← hitFather lines i
  let mo ← hitMother lines i
  some
    { english_name := applyHit (hitEnglish lines i) out.english_name
      date_of_birth := applyHit (hitDob lines i) out.date_of_birth
      id_no := applyHit (hitIdno lines i) out.id_no
      father_name := applyHit fa out.father_name
      mother_name := applyHit mo out.mother_name
      bangla_name := applyHit (hitBangla lines i) out.bangla_name }

/-- The extraction loop: `rest` is structurally the tail `lines[i:]`, so
the recursion is structural and computes by `decide`/`rfl`. -/
def extractGo (lines : List OCRLine) : Nat → List OCRLine → NIDFields → Option NIDFields
  | _, [], out => some out
  | i, _ :: rest, out =>
    match processLine lines i out with
    | none => none
    | some out1 => extractGo lines (i + 1) rest out1

/-- `extract_nid_fields(lines)`; `none` models a raised exception. -/
def extract_nid_fields (lines : List OCRLine) : Option NIDFields :=
  extractGo lines 0 lines initFields

/-! ## Loop characterization

Each of the six slots of the output evolves independently: the final
value of a slot is the fold of its per-line hits over the loop.  The
fold below runs in lockstep with `extractGo` (`rest` plays the same
structural role). -/

/-- The value a fallible hit stored, on a run where it did not raise. -/
def okHit (h : Option (Option FieldRec)) : Option FieldRec := h.getD none

/-- Fold the per-line hits of one slot over lines `i, i+1, ...`
(one step per element of `rest`). -/
def foldHitsGo (hit : Nat → Option FieldRec) : Nat → List OCRLine → Option FieldRec → Option FieldRec
  | _, [], acc => acc
  | i, _ :: rest, acc => foldHitsGo hit (i + 1) rest (applyHit (hit i) acc)

theorem foldHitsGo_of_none (hit : Nat → Option FieldRec) :
    ∀ (rest : List OCRLine) (i : Nat) (acc : Option FieldRec),
      (∀ k, i ≤ k → k < i + rest.length → hit k = none) →
      foldHitsGo hit i rest acc = acc := by
  intro rest
  induction rest with
  | nil => intro i acc _; rfl
  | cons a rest ih =>
    intro i acc h
    have h0 : hit i = none := h i (Nat.le_refl i) (by simp only [List.length_cons]; omega)
    simp only [foldHitsGo, h0, applyHit]
    exact ih (i + 1) acc (fun k hk1 hk2 => h k (by omega) (by simp at hk2 ⊢; omega))

theorem foldHitsGo_last (hit : Nat → Option FieldRec) :
    ∀ (rest : List OCRLine) (i : Nat) (acc : Option FieldRec) (j : Nat) (v : FieldRec),
      i ≤ j → j < i + rest.length → hit j = some v →
      (∀ k, j < k → k < i + rest.length → hit k = none) →
      foldHitsGo hit i rest acc = some v := by
  intro rest
  induction rest with
  | nil => intro i acc j v h1 h2 _ _; simp at h2; omega
  | cons a rest ih =>
    intro i acc j v h1 h2 hv hafter
    by_cases hij : i = j
    · subst hij
      simp only [foldHitsGo, hv, applyHit]
      exact foldHitsGo_of_none hit rest (i + 1) (some v)
        (fun k hk1 hk2 => hafter k (by omega) (by simp at hk2 ⊢; omega))
    · have h0 : i < j := Nat.lt_of_le_of_ne h1 hij
      simp only [foldHitsGo]
      exact ih (i + 1) _ j v (by omega) (by simp at h2 ⊢; omega) hv
        (fun k hk1 hk2 => hafter k hk1 (by simp at hk2 ⊢; omega))

theorem processLine_eq (lines : List OCRLine) (i : Nat) (out out' : NIDFields)
    (h : processLine lines i out = some out') :
    out' =
      { english_name := applyHit (hitEnglish lines i) out.english_name
        date_of_birth := applyHit (hitDob lines i) out.date_of_birth
        id_no := applyHit (hitIdno lines i) out.id_no
        father_name := applyHit (okHit (hitFather lines i)) out.father_name
        mother_name := applyHit (okHit (hitMother lines i)) out.mother_name
        bangla_name := applyHit (hitBangla lines i) out.bangla_name } := by
  cases hf : hitFather lines i with
  | none => simp [processLine, hf] at h
  | some fa =>
    cases hm : hitMother lines i with
    | none => simp [processLine, hf, hm] at h
    | some mo =>
      simp [processLine, hf, hm, okHit] at h ⊢
      exact h.symm

theorem extractGo_char (lines : List OCRLine) :
    ∀ (rest : List OCRLine) (i : Nat) (out out' : NIDFields),
      extractGo lines i rest out = some out' →
      out'.english_name = foldHitsGo (hitEnglish lines) i rest out.english_name ∧
      out'.date_of_birth = foldHitsGo (hitDob lines) i rest out.date_of_birth ∧
      out'.id_no = foldHitsGo (hitIdno lines) i rest out.id_no ∧
      out'.father_name = foldHitsGo (fun k => okHit (hitFather lines k)) i rest out.father_name ∧
      out'.mother_name = foldHitsGo (fun k => okHit (hitMother lines k)) i rest out.mother_name ∧
      out'.bangla_name = foldHitsGo (hitBangla lines) i rest out.bangla_name := by
  intro rest
  induction rest with
  | nil =>
    intro i out out' h
    simp only [extractGo, Option.some_inj] at h
    subst h
    exact ⟨rfl, rfl, rfl, rfl, rfl, rfl⟩
  | cons a rest ih =>
    intro i out out' h
    simp only [extractGo] at h
    cases hp : processLine lines i out with
    | none => rw [hp] at h; exact absurd h (by simp)
    | some out1 =>
      rw [hp] at h
      have he := processLine_eq lines i out out1 hp
      have hrec := ih (i + 1) out1 out' h
      subst he
      simpa only [foldHitsGo] using hrec

/-- Final characterization of a successful run: each slot is the fold of
its hits over all line indices. -/
theorem extract_char (lines : List OCRLine) (out : NIDFields)
    (h : extract_nid_fields lines = some out) :
    out.english_name = foldHitsGo (hitEnglish lines) 0 lines none ∧
    out.date_of_birth = foldHitsGo (hitDob lines) 0 lines none ∧
    out.id_no = foldHitsGo (hitIdno lines) 0 lines none ∧
    out.father_name = foldHitsGo (fun k => okHit (hitFather lines k)) 0 lines none ∧
    out.mother_name = foldHitsGo (fun k => okHit (hitMother lines k)) 0 lines none ∧
    out.bangla_name = foldHitsGo (hitBangla lines) 0 lines none :=
  extractGo_char lines lines 0 initFields out h

/-! ## Whitespace-stripping facts -/

theorem dropWhile_head_not (p : Char → Bool) :
    ∀ (l : List Char) (c : Char) (cs : List Char), l.dropWhile p = c :: cs → p c = false := by
  intro l
  induction l with
  | nil => intro c cs h; simp [List.dropWhile] at h
  | cons a t ih =>
    intro c cs h
    by_cases hp : p a
    · rw [List.dropWhile_cons_of_pos hp] at h
      exact ih c cs h
    · rw [List.dropWhile_cons_of_neg hp] at h
      obtain ⟨rfl, -⟩ := List.cons.inj h
      exact Bool.of_not_eq_true hp

theorem dropWhile_idem (p : Char → Bool) (l : List Char) :
    (l.dropWhile p).dropWhile p = l.dropWhile p := by
  cases h : l.dropWhile p with
  | nil => rfl
  | cons c cs =>
    rw [List.dropWhile_cons_of_neg]
    rw [dropWhile_head_not p l c cs h]
    simp

theorem stripL_idem (l : List Char) : stripL (stripL l) = stripL l := by
  unfold stripL
  set u := l.dropWhile isPySpace with hu
  set v := u.reverse.dropWhile isPySpace with hv
  have hA : v.reverse.dropWhile isPySpace = v.reverse := by
    cases hc : v.reverse with
    | nil => rfl
    | cons c cs =>
      obtain ⟨t, ht⟩ := (List.dropWhile_suffix (l := u.reverse) isPySpace)
      have hu2 : u = v.reverse ++ t.reverse := by
        have h1 := congrArg List.reverse ht
        simp only [List.reverse_append, List.reverse_reverse] at h1
        rw [← hv] at h1
        exact h1.symm
      have hcu : u = c :: (cs ++ t.reverse) := by rw [hu2, hc]; simp
      have hpc : isPySpace c = false :=
        dropWhile_head_not isPySpace l c _ (hu.symm.trans hcu)
      exact List.dropWhile_cons_of_neg (by simp [hpc])
  rw [hA, List.reverse_reverse]
  rw [hv, dropWhile_idem]

theorem pyStrip_idem (s : String) : pyStrip (pyStrip s) = pyStrip s :=
  congrArg String.mk (stripL_idem s.data)

theorem pyStrip_empty : pyStrip "" = "" := by decide

/-! ## Provenance of stored records (for bbox/text invariants) -/

/-- A stored record is *good* when its bbox is (a copy of) the bbox of
one of the input lines and its text is already whitespace-trimmed. -/
def goodRec (lines : List OCRLine) (r : FieldRec) : Prop :=
  (∃ l ∈ lines, r.bbox = l.bbox) ∧ pyStrip r.text = r.text

theorem stripText_ne_imp_lt (lines : List OCRLine) (i : Nat) (h : stripText lines i ≠ "") :
    i < lines.length := by
  by_contra hc
  push_neg at hc
  exact h (by unfold stripText lineAt; rw [List.getD_eq_default _ _ hc]; decide)

theorem lineAt_mem (lines : List OCRLine) (i : Nat) (h : i < lines.length) :
    lineAt lines i ∈ lines := by
  unfold lineAt
  rw [List.getD_eq_getElem _ _ h]
  exact List.getElem_mem h

theorem hitEnglish_good (lines : List OCRLine) (i : Nat) (r : FieldRec)
    (h : hitEnglish lines i = some r) : goodRec lines r := by
  simp only [hitEnglish] at h
  split at h
  case isTrue hm =>
    injection h with h
    subst h
    refine ⟨⟨lineAt lines i, lineAt_mem _ _ ?_, rfl⟩, pyStrip_idem _⟩
    apply stripText_ne_imp_lt
    intro he
    rw [he] at hm
    exact absurd hm (by decide)
  case isFalse => exact absurd h (by simp)

theorem hitDob_good (lines : List OCRLine) (i : Nat) (r : FieldRec)
    (h : hitDob lines i = some r) : goodRec lines r := by
  simp only [hitDob] at h
  split at h
  case isTrue hm =>
    injection h with h
    subst h
    refine ⟨⟨lineAt lines i, lineAt_mem _ _ ?_, rfl⟩, pyStrip_idem _⟩
    apply stripText_ne_imp_lt
    intro he
    rw [he] at hm
    exact absurd hm (by decide)
  case isFalse => exact absurd h (by simp)

theorem hitIdno_good (lines : List OCRLine) (i : Nat) (r : FieldRec)
    (h : hitIdno lines i = some r) : goodRec lines r := by
  simp only [hitIdno] at h
  split at h
  case isTrue hm =>
    injection h with h
    subst h
    refine ⟨⟨lineAt lines i, lineAt_mem _ _ ?_, rfl⟩, pyStrip_idem _⟩
    apply stripText_ne_imp_lt
    intro he
    rw [he] at hm
    exact absurd hm (by decide)
  case isFalse => exact absurd h (by simp)

theorem hitFather_good (lines : List OCRLine) (i : Nat) (r : FieldRec)
    (h : hitFather lines i = some (some r)) : goodRec lines r := by
  simp only [hitFather] at h
  split at h
  case isFalse => simp at h
  case isTrue hlab =>
    have hlt : i < lines.length := stripText_ne_imp_lt lines i (by
      intro he; rw [he] at hlab; exact absurd hlab (by decide))
    split at h
    case isTrue =>
      injection h with h
      injection h with h
      subst h
      exact ⟨⟨lineAt lines i, lineAt_mem _ _ hlt, rfl⟩, pyStrip_idem _⟩
    case isFalse =>
      split at h
      case isTrue =>
        split at h
        case h_1 => exact absurd h (by simp)
        case h_2 =>
          injection h with h
          injection h with h
          subst h
          exact ⟨⟨lineAt lines i, lineAt_mem _ _ hlt, rfl⟩, pyStrip_idem _⟩
      case isFalse =>
        injection h with h
        injection h with h
        subst h
        exact ⟨⟨lineAt lines i, lineAt_mem _ _ hlt, rfl⟩, pyStrip_empty⟩

theorem hitMother_good (lines : List OCRLine) (i : Nat) (r : FieldRec)
    (h : hitMother lines i = some (some r)) : goodRec lines r := by
  simp only [hitMother] at h
  split at h
  case isFalse => simp at h
  case isTrue hlab =>
    have hlt : i < lines.length := stripText_ne_imp_lt lines i (by
      intro he; rw [he] at hlab; exact absurd hlab (by decide))
    split at h
    case isTrue =>
      injection h with h
      injection h with h
      subst h
      exact ⟨⟨lineAt lines i, lineAt_mem _ _ hlt, rfl⟩, pyStrip_idem _⟩
    case isFalse =>
      split at h
      case isTrue =>
        injection h with h
        injection h with h
        subst h
        refine ⟨⟨lineAt lines (i - 1), lineAt_mem _ _ ?_, rfl⟩, pyStrip_idem _⟩
        omega
      case isFalse =>
        split at h
        case isTrue =>
          split at h
          case h_1 => exact absurd h (by simp)
          case h_2 =>
            injection h with h
            injection h with h
            subst h
            exact ⟨⟨lineAt lines i, lineAt_mem _ _ hlt, rfl⟩, pyStrip_idem _⟩
        case isFalse =>
          injection h with h
          injection h with h
          subst h
          exact ⟨⟨lineAt lines i, lineAt_mem _ _ hlt, rfl⟩, pyStrip_empty⟩

theorem backCand_ne (lines : List OCRLine) :
    ∀ n j, backCand lines n = some j → stripText lines j ≠ "" := by
  intro n
  induction n with
  | zero => intro j h; simp [backCand] at h
  | succ m ih =>
    intro j h
    simp only [backCand] at h
    split at h
    case isTrue hc =>
      injection h with h
      subst h
      simp only [Bool.and_eq_true, decide_eq_true_eq] at hc
      exact hc.1.1
    case isFalse => exact ih j h

theorem nextTry_good (lines : List OCRLine) (i : Nat) (r : FieldRec)
    (h : nextTry lines i = some r) : goodRec lines r := by
  simp only [nextTry] at h
  split at h
  case isTrue hlt =>
    split at h
    case isTrue =>
      injection h with h
      subst h
      exact ⟨⟨lineAt lines (i + 1), lineAt_mem _ _ hlt, rfl⟩, pyStrip_idem _⟩
    case isFalse => exact absurd h (by simp)
  case isFalse => exact absurd h (by simp)

theorem hitBangla_good (lines : List OCRLine) (i : Nat) (r : FieldRec)
    (h : hitBangla lines i = some r) : goodRec lines r := by
  simp only [hitBangla] at h
  split at h
  case isFalse => simp at h
  case isTrue =>
    split at h
    case h_1 j hj =>
      split at h
      case isTrue =>
        injection h with h
        subst h
        refine ⟨⟨lineAt lines j, lineAt_mem _ _ ?_, rfl⟩, pyStrip_idem _⟩
        exact stripText_ne_imp_lt lines j (backCand_ne lines i j hj)
      case isFalse => exact nextTry_good lines i r h
    case h_2 => exact nextTry_good lines i r h

theorem okHitFather_good (lines : List OCRLine) (k : Nat) (r : FieldRec)
    (h : okHit (hitFather lines k) = some r) : goodRec lines r := by
  unfold okHit at h
  cases hf : hitFather lines k with
  | none => rw [hf] at h; simp at h
  | some fa =>
    rw [hf] at h
    simp only [Option.getD_some] at h
    subst h
    exact hitFather_good lines k r hf

theorem okHitMother_good (lines : List OCRLine) (k : Nat) (r : FieldRec)
    (h : okHit (hitMother lines k) = some r) : goodRec lines r := by
  unfold okHit at h
  cases hf : hitMother lines k with
  | none => rw [hf] at h; simp at h
  | some mo =>
    rw [hf] at h
    simp only [Option.getD_some] at h
    subst h
    exact hitMother_good lines k r hf

theorem foldHitsGo_good (lines : List OCRLine) (hit : Nat → Option FieldRec)
    (hh : ∀ k r, hit k = some r → goodRec lines r) :
    ∀ (rest : List OCRLine) (i : Nat) (acc : Option FieldRec),
      (∀ r, acc = some r → goodRec lines r) →
      ∀ r, foldHitsGo hit i rest acc = some r → goodRec lines r := by
  intro rest
  induction rest with
  | nil => intro i acc hacc r h; exact hacc r h
  | cons a rest ih =>
    intro i acc hacc r h
    refine ih (i + 1) _ ?_ r h
    intro r' h'
    cases hhi : hit i with
    | some v =>
      simp only [applyHit, hhi] at h'
      injection h' with h'
      exact h' ▸ hh i v hhi
    | none =>
      simp only [applyHit, hhi] at h'
      exact hacc r' h'

/-! ## Claim C1 -/

/-- C1: the claim says `extract_nid_fields` is total over every input
sequence, including lines whose text is `None`, and never raises.  The
code contradicts this: on a line containing the father label with no
same-line value, whose successor line has `None` text, the unguarded
`lines[i + 1].text.strip()` raises `AttributeError` (modelled as `none`).
This theorem evaluates the extractor at that failing input. -/
theorem c1_extract_raises_on_none_neighbor :
    extract_nid_fields [⟨some "পিতা:", [0, 0, 5, 5]⟩, ⟨none, [1, 1, 2, 2]⟩] = none := by
  decide

/-! ## Claim C3 -/

/-- C3: the claim describes the three-way precedence of the mother-name
rule, whose branch (3) is said to use the next line's text.  On the
failing input below the rule reaches branch (3) with a next line whose
text is `None`, and the code raises `AttributeError` from the unguarded
`lines[i + 1].text.strip()` instead of producing a record: the claimed
universal determination of `mother_name` fails there.  The guards
`(line.text or "")` everywhere else in the same function show the slip
is in the code, not the claim. -/
theorem c3_mother_raises_on_none_next :
    extract_nid_fields [⟨some "মাতা:", [0, 0, 5, 5]⟩, ⟨none, [1, 1, 2, 2]⟩] = none := by
  decide

/-! ## Claim C10 -/

/-- C10: on every run of `extract_nid_fields` that returns a result,
every present field record carries a bbox that is exactly the bbox of
one of the input lines, and a whitespace-trimmed text value: the
extractor never synthesizes, merges, or alters coordinates. -/
theorem c10_field_provenance (lines : List OCRLine) (out : NIDFields)
    (h : extract_nid_fields lines = some out) (r : FieldRec)
    (hr : out.english_name = some r ∨ out.bangla_name = some r ∨ out.father_name = some r ∨
      out.mother_name = some r ∨ out.date_of_birth = some r ∨ out.id_no = some r) :
    (∃ l ∈ lines, r.bbox = l.bbox) ∧ pyStrip r.text = r.text := by
  obtain ⟨he, hd, hi, hf, hm, hb⟩ := extract_char lines out h
  rcases hr with hr | hr | hr | hr | hr | hr
  · rw [he] at hr
    exact foldHitsGo_good lines _ (hitEnglish_good lines) lines 0 none (by simp) r hr
  · rw [hb] at hr
    exact foldHitsGo_good lines _ (hitBangla_good lines) lines 0 none (by simp) r hr
  · rw [hf] at hr
    exact foldHitsGo_good lines _ (okHitFather_good lines) lines 0 none (by simp) r hr
  · rw [hm] at hr
    exact foldHitsGo_good lines _ (okHitMother_good lines) lines 0 none (by simp) r hr
  · rw [hd] at hr
    exact foldHitsGo_good lines _ (hitDob_good lines) lines 0 none (by simp) r hr
  · rw [hi] at hr
    exact foldHitsGo_good lines _ (hitIdno_good lines) lines 0 none (by simp) r hr

/-- Witness for C10 at a concrete input. -/
theorem c10_witness :
    extract_nid_fields [⟨some "Name: JOHN", [1, 2, 3, 4]⟩] =
      some ⟨some ⟨[1, 2, 3, 4], "JOHN"⟩, none, none, none, none, none⟩ ∧
    ((∃ l ∈ [(⟨some "Name: JOHN", [1, 2, 3, 4]⟩ : OCRLine)],
        ([1, 2, 3, 4] : List Int) = l.bbox) ∧
      pyStrip "JOHN" = "JOHN") :=
  ⟨by decide,
    c10_field_provenance [⟨some "Name: JOHN", [1, 2, 3, 4]⟩]
      ⟨some ⟨[1, 2, 3, 4], "JOHN"⟩, none, none, none, none, none⟩ (by decide)
      ⟨[1, 2, 3, 4], "JOHN"⟩ (Or.inl rfl)⟩

/-! ## Claim C7 -/

/-- Counterexample input for C7: the bangla-name label `নাম:` occurs in
lines 1 and 3.  Line 1's rule accepts the preceding line 0 (`আলম`);
line 3's rule finds line 2 (`পিতা:`) as its sole backward candidate,
rejects it (it contains a colon), and has no following line, so it
stores nothing. -/
def c7Lines : List OCRLine :=
  [⟨some "আলম", [1, 1, 1, 1]⟩, ⟨some "নাম:", [2, 2, 2, 2]⟩,
   ⟨some "পিতা:", [3, 3, 3, 3]⟩, ⟨some "নাম:", [4, 4, 4, 4]⟩]

/-- The extraction result on `c7Lines`. -/
def c7Out : NIDFields :=
  ⟨none, some ⟨[1, 1, 1, 1], "আলম"⟩, some ⟨[3, 3, 3, 3], "নাম:"⟩, none, none, none⟩

/-- C7 counterexample: the claim says each later match of a field's label
pattern unconditionally overwrites any earlier one.  On `c7Lines` the
bangla-name label matches both line 1 and line 3, the last matching
line's rule stores nothing (`hitBangla c7Lines 3 = none`), and the final
`bangla_name` is still the record stored while processing line 1 — the
later label match did not overwrite, so the claim as stated is false. -/
theorem c7_counterexample :
    pyIn BANGLA_NAME_LABEL (stripText c7Lines 1) = true ∧
    pyIn BANGLA_NAME_LABEL (stripText c7Lines 3) = true ∧
    hitBangla c7Lines 3 = none ∧
    extract_nid_fields c7Lines = some c7Out ∧
    c7Out.bangla_name = some ⟨[1, 1, 1, 1], "আলম"⟩ := by
  refine ⟨by decide, by decide, by decide, by decide, by decide⟩

/-- C7 amended: on a successful run, last-match-wins holds per *stored*
match: for each of the six fields, if line `j`'s rule stores a record
`v` and no later line's rule stores one for that field, the final field
equals `v`.  For `english_name`, `date_of_birth`, `id_no`,
`father_name` and `mother_name` the rule stores a record exactly when
the label pattern matches (so each later label match overwrites
unconditionally); for `bangla_name` a later label line overwrites only
when its rule accepts a backward or forward candidate. -/
theorem c7_last_match_wins (lines : List OCRLine) (out : NIDFields)
    (h : extract_nid_fields lines = some out) (j : Nat) (v : FieldRec)
    (hj : j < lines.length) :
    (hitEnglish lines j = some v →
      (∀ k, j < k → k < lines.length → hitEnglish lines k = none) →
      out.english_name = some v) ∧
    (hitDob lines j = some v →
      (∀ k, j < k → k < lines.length → hitDob lines k = none) →
      out.date_of_birth = some v) ∧
    (hitIdno lines j = some v →
      (∀ k, j < k → k < lines.length → hitIdno lines k = none) →
      out.id_no = some v) ∧
    (okHit (hitFather lines j) = some v →
      (∀ k, j < k → k < lines.length → okHit (hitFather lines k) = none) →
      out.father_name = some v) ∧
    (okHit (hitMother lines j) = some v →
      (∀ k, j < k → k < lines.length → okHit (hitMother lines k) = none) →
      out.mother_name = some v) ∧
    (hitBangla lines j = some v →
      (∀ k, j < k → k < lines.length → hitBangla lines k = none) →
      out.bangla_name = some v) := by
  obtain ⟨he, hd, hi, hf, hm, hb⟩ := extract_char lines out h
  refine ⟨fun hv hafter => ?_, fun hv hafter => ?_, fun hv hafter => ?_,
    fun hv hafter => ?_, fun hv hafter => ?_, fun hv hafter => ?_⟩
  · rw [he]
    exact foldHitsGo_last _ lines 0 none j v (Nat.zero_le j) (by omega) hv
      (fun k hk1 hk2 => hafter k hk1 (by omega))
  · rw [hd]
    exact foldHitsGo_last _ lines 0 none j v (Nat.zero_le j) (by omega) hv
      (fun k hk1 hk2 => hafter k hk1 (by omega))
  · rw [hi]
    exact foldHitsGo_last _ lines 0 none j v (Nat.zero_le j) (by omega) hv
      (fun k hk1 hk2 => hafter k hk1 (by omega))
  · rw [hf]
    exact foldHitsGo_last _ lines 0 none j v (Nat.zero_le j) (by omega) hv
      (fun k hk1 hk2 => hafter k hk1 (by omega))
  · rw [hm]
    exact foldHitsGo_last _ lines 0 none j v (Nat.zero_le j) (by omega) hv
      (fun k hk1 hk2 => hafter k hk1 (by omega))
  · rw [hb]
    exact foldHitsGo_last _ lines 0 none j v (Nat.zero_le j) (by omega) hv
      (fun k hk1 hk2 => hafter k hk1 (by omega))

/-- Witness for C7 at a concrete input with two `Name:` lines: the final
`english_name` comes from the later line. -/
theorem c7_witness :
    extract_nid_fields [⟨some "Name: A", [1, 1, 1, 1]⟩, ⟨some "Name: B", [2, 2, 2, 2]⟩] =
      some ⟨some ⟨[2, 2, 2, 2], "B"⟩, none, none, none, none, none⟩ ∧
    (⟨some ⟨[2, 2, 2, 2], "B"⟩, none, none, none, none, none⟩ : NIDFields).english_name =
      some ⟨[2, 2, 2, 2], "B"⟩ :=
  ⟨by decide,
    (c7_last_match_wins [⟨some "Name: A", [1, 1, 1, 1]⟩, ⟨some "Name: B", [2, 2, 2, 2]⟩]
        ⟨some ⟨[2, 2, 2, 2], "B"⟩, none, none, none, none, none⟩ (by decide) 1
        ⟨[2, 2, 2, 2], "B"⟩ (by decide)).1 (by decide)
      (fun k hk1 hk2 => by simp only [List.length_cons, List.length_nil] at hk2; omega)⟩

/-! ## Claim C2 -/

/-- Modelled from the spec's words (C2): scanning backward from the
immediately preceding line, the first prior line whose trimmed text is
non-empty, contains Bengali script, and is not a header line — the sole
backward candidate. -/
def specBackCandidate (lines : List OCRLine) (i : Nat) : Option Nat :=
  (List.range i).reverse.find?
    (fun j => decide (stripText lines j ≠ "") && has_bengali (stripText lines j) &&
      !is_header_line (stripText lines j))

/-- Modelled from the spec's words (C2): the immediately following line
is accepted (with its own bbox) iff it exists, is non-empty, contains
Bengali script, and does not match the English name-prefix pattern;
otherwise the field is left as it was. -/
def specForwardRule (lines : List OCRLine) (i : Nat) (cur : Option FieldRec) : Option FieldRec :=
  if i + 1 < lines.length ∧ stripText lines (i + 1) ≠ "" ∧
      has_bengali (stripText lines (i + 1)) = true ∧
      nameMatches (stripText lines (i + 1)) = false then
    some ⟨(lineAt lines (i + 1)).bbox, stripText lines (i + 1)⟩
  else cur

/-- Modelled from the spec's words (C2): the backward candidate is
accepted (with its own bbox) iff it contains no colon and does not match
the English name-prefix pattern; if no backward candidate is accepted,
the following line is tried. -/
def specBanglaRule (lines : List OCRLine) (i : Nat) (cur : Option FieldRec) : Option FieldRec :=
  match specBackCandidate lines i with
  | some j =>
    if !pyIn ":" (stripText lines j) && !nameMatches (stripText lines j) then
      some ⟨(lineAt lines j).bbox, stripText lines j⟩
    else specForwardRule lines i cur
  | none => specForwardRule lines i cur

/-- The code's backward `for`-loop computes exactly the spec's backward
candidate. -/
theorem backCand_eq_spec (lines : List OCRLine) :
    ∀ i, backCand lines i = specBackCandidate lines i := by
  intro i
  induction i with
  | zero => rfl
  | succ m ih =>
    have hrev : (List.range (m + 1)).reverse = m :: (List.range m).reverse := by
      rw [List.range_succ, List.reverse_append]
      rfl
    unfold specBackCandidate
    rw [hrev]
    simp only [backCand]
    by_cases hc : (decide (stripText lines m ≠ "") && has_bengali (stripText lines m) &&
        !is_header_line (stripText lines m)) = true
    · have hfind : List.find?
          (fun j => decide (stripText lines j ≠ "") && has_bengali (stripText lines j) &&
            !is_header_line (stripText lines j)) (m :: (List.range m).reverse) = some m :=
        List.find?_cons_of_pos _ hc
      rw [if_pos hc, hfind]
    · have hfind : List.find?
          (fun j => decide (stripText lines j ≠ "") && has_bengali (stripText lines j) &&
            !is_header_line (stripText lines j)) (m :: (List.range m).reverse) =
          List.find?
            (fun j => decide (stripText lines j ≠ "") && has_bengali (stripText lines j) &&
              !is_header_line (stripText lines j)) (List.range m).reverse :=
        List.find?_cons_of_neg _ hc
      rw [if_neg hc, hfind]
      exact ih

/-- The code's next-line attempt, applied to the current slot, is the
spec's forward rule. -/
theorem applyHit_nextTry (lines : List OCRLine) (i : Nat) (cur : Option FieldRec) :
    applyHit (nextTry lines i) cur = specForwardRule lines i cur := by
  by_cases h1 : i + 1 < lines.length
  · by_cases h2 : (decide (stripText lines (i + 1) ≠ "") && has_bengali (stripText lines (i + 1))
        && !nameMatches (stripText lines (i + 1))) = true
    · have hn : nextTry lines i = some ⟨(lineAt lines (i + 1)).bbox, stripText lines (i + 1)⟩ := by
        simp only [nextTry, if_pos h1]
        rw [if_pos h2]
      have hcond : i + 1 < lines.length ∧ stripText lines (i + 1) ≠ "" ∧
          has_bengali (stripText lines (i + 1)) = true ∧
          nameMatches (stripText lines (i + 1)) = false := by
        simp only [Bool.and_eq_true, decide_eq_true_eq, Bool.not_eq_true'] at h2
        exact ⟨h1, h2.1.1, h2.1.2, h2.2⟩
      rw [hn, specForwardRule, if_pos hcond]
      rfl
    · have hn : nextTry lines i = none := by
        simp only [nextTry, if_pos h1]
        rw [if_neg h2]
      have hcond : ¬(i + 1 < lines.length ∧ stripText lines (i + 1) ≠ "" ∧
          has_bengali (stripText lines (i + 1)) = true ∧
          nameMatches (stripText lines (i + 1)) = false) := by
        intro hcon
        apply h2
        simp only [Bool.and_eq_true, decide_eq_true_eq, Bool.not_eq_true']
        exact ⟨⟨hcon.2.1, hcon.2.2.1⟩, hcon.2.2.2⟩
      rw [hn, specForwardRule, if_neg hcond]
      rfl
  · have hn : nextTry lines i = none := by
      simp only [nextTry]
      rw [if_neg h1]
    have hcond : ¬(i + 1 < lines.length ∧ stripText lines (i + 1) ≠ "" ∧
        has_bengali (stripText lines (i + 1)) = true ∧
        nameMatches (stripText lines (i + 1)) = false) := fun hcon => h1 hcon.1
    rw [hn, specForwardRule, if_neg hcond]
    rfl

/-- C2: whenever line `i` contains the Bengali name label, the
`bangla_name` slot after processing line `i` is exactly the spec's
determination: sole backward candidate (scan stops there regardless of
outcome), accepted iff colon-free and not an English `Name:` line, else
the immediately following line iff non-empty, Bengali, and not a
`Name:` line, else left unchanged — so an acceptable preceding line
always wins over any following line. -/
theorem c2_bangla_name_rule (lines : List OCRLine) (i : Nat) (out out' : NIDFields)
    (hlab : pyIn BANGLA_NAME_LABEL (stripText lines i) = true)
    (h : processLine lines i out = some out') :
    out'.bangla_name = specBanglaRule lines i out.bangla_name := by
  have he := processLine_eq lines i out out' h
  have hb : out'.bangla_name = applyHit (hitBangla lines i) out.bangla_name := by
    rw [he]
  rw [hb]
  simp only [hitBangla]
  rw [if_pos hlab, backCand_eq_spec lines i]
  unfold specBanglaRule
  cases hbc : specBackCandidate lines i with
  | some j =>
    show applyHit
        (if (!pyIn ":" (stripText lines j) && !nameMatches (stripText lines j)) = true then
          some ⟨(lineAt lines j).bbox, stripText lines j⟩
        else nextTry lines i) out.bangla_name =
      (if (!pyIn ":" (stripText lines j) && !nameMatches (stripText lines j)) = true then
        some ⟨(lineAt lines j).bbox, stripText lines j⟩
      else specForwardRule lines i out.bangla_name)
    by_cases hacc : (!pyIn ":" (stripText lines j) && !nameMatches (stripText lines j)) = true
    · rw [if_pos hacc, if_pos hacc]
      rfl
    · rw [if_neg hacc, if_neg hacc]
      exact applyHit_nextTry lines i out.bangla_name
  | none =>
    show applyHit (nextTry lines i) out.bangla_name = specForwardRule lines i out.bangla_name
    exact applyHit_nextTry lines i out.bangla_name

/-- Witness for C2 at a concrete input: a Bengali line directly before
the label line is accepted backward. -/
theorem c2_witness :
    processLine [⟨some "করিম", [1, 2, 3, 4]⟩, ⟨some "নাম:", [5, 6, 7, 8]⟩] 1 initFields =
      some ⟨none, some ⟨[1, 2, 3, 4], "করিম"⟩, none, none, none, none⟩ ∧
    (⟨none, some ⟨[1, 2, 3, 4], "করিম"⟩, none, none, none, none⟩ : NIDFields).bangla_name =
      specBanglaRule [⟨some "করিম", [1, 2, 3, 4]⟩, ⟨some "নাম:", [5, 6, 7, 8]⟩] 1 none :=
  ⟨by decide,
    c2_bangla_name_rule [⟨some "করিম", [1, 2, 3, 4]⟩, ⟨some "নাম:", [5, 6, 7, 8]⟩] 1
      initFields ⟨none, some ⟨[1, 2, 3, 4], "করিম"⟩, none, none, none, none⟩
      (by decide) (by decide)⟩

/-! ## Claim C4 -/

/-- Counterexample input for C4: the date-of-birth label occurs only in
the middle of the single line's text. -/
def c4Lines : List OCRLine := [⟨some "x Date of Birth: 1990", [1, 2, 3, 4]⟩]

/-- The extraction result on `c4Lines`. -/
def c4Out : NIDFields := ⟨none, none, none, none, some ⟨[1, 2, 3, 4], "x 1990"⟩, none⟩

/-- C4 counterexample: the claim says a line sets `date_of_birth` only
when the label is a prefix of the trimmed text, and that a mid-line
occurrence does not count.  On `c4Lines` the pattern does not match at
the start of the line (`matchDobAt ... = none` at position 0), yet the
code sets the field — `DOB_PREFIX` is unanchored and `re.search` finds
it mid-line; moreover the stored value is the text with the occurrence
deleted (`"x 1990"`), not a suffix after a prefix. -/
theorem c4_counterexample :
    extract_nid_fields c4Lines = some c4Out ∧
    c4Out.date_of_birth = some ⟨[1, 2, 3, 4], "x 1990"⟩ ∧
    (matchDobAt (stripText c4Lines 0).data).isSome = false := by
  refine ⟨by decide, by decide, by decide⟩

/-- Matching a case-insensitive literal at the head succeeds exactly
when the literal is a prefix of the lowercased text. -/
theorem matchCI_isSome_iff : ∀ (kw s : List Char),
    (matchCI kw s).isSome = true ↔ kw.isPrefixOf (s.map pyLower) = true := by
  intro kw
  induction kw with
  | nil => intro s; simp [matchCI, List.isPrefixOf]
  | cons k ks ih =>
    intro s
    cases s with
    | nil => simp [matchCI, List.isPrefixOf]
    | cons c cs =>
      by_cases hk : pyLower c = k
      · simp only [matchCI, if_pos hk, List.map_cons, List.isPrefixOf, Bool.and_eq_true,
          beq_iff_eq]
        rw [ih cs]
        constructor
        · intro hp; exact ⟨hk.symm, hp⟩
        · intro hp; exact hp.2
      · simp only [matchCI, if_neg hk, List.map_cons, List.isPrefixOf, Bool.and_eq_true,
          beq_iff_eq]
        constructor
        · intro hcon; exact Bool.noConfusion hcon
        · intro hp; exact absurd hp.1.symm hk

/-- A successful case-insensitive literal match consumes exactly the
literal's length. -/
theorem matchCI_eq_drop : ∀ (kw s r : List Char),
    matchCI kw s = some r → r = s.drop kw.length := by
  intro kw
  induction kw with
  | nil => intro s r h; simp only [matchCI, Option.some_inj] at h; simp [h.symm]
  | cons k ks ih =>
    intro s r h
    cases s with
    | nil => simp [matchCI] at h
    | cons c cs =>
      simp only [matchCI] at h
      split at h
      · exact ih cs r h
      · exact absurd h (by simp)

/-- `re.search` of an unanchored pattern succeeds exactly when the
pattern matches at some start position. -/
theorem searchAnywhere_iff (m : List Char → Option (List Char)) :
    ∀ l : List Char, searchAnywhere m l = true ↔ ∃ n, (m (l.drop n)).isSome = true := by
  intro l
  induction l with
  | nil =>
    simp only [searchAnywhere]
    constructor
    · intro h; exact ⟨0, h⟩
    · rintro ⟨n, hn⟩; simpa using hn
  | cons c cs ih =>
    simp only [searchAnywhere, Bool.or_eq_true, ih]
    constructor
    · rintro (h | ⟨n, hn⟩)
      · exact ⟨0, h⟩
      · exact ⟨n + 1, hn⟩
    · rintro ⟨n, hn⟩
      cases n with
      | zero => exact Or.inl (by simpa using hn)
      | succ n => exact Or.inr ⟨n, hn⟩

/-- Stripping is unchanged by first removing leading whitespace. -/
theorem stripL_wsMunch (l : List Char) : stripL (l.dropWhile isPySpace) = stripL l := by
  unfold stripL
  rw [dropWhile_idem]

theorem isSome_map_wsMunch (x : Option (List Char)) :
    (Option.map wsMunch x).isSome = x.isSome := by
  cases x <;> rfl

/-- C4 amended: `english_name` is set from a line exactly when `Name:`
is a (case-insensitive) prefix of the trimmed text, with value the rest
after the label, trimmed; but `date_of_birth` and `id_no` are set
exactly when their whitespace-tolerant pattern occurs *anywhere* in the
trimmed text (a mid-line occurrence counts), the stored value being the
trimmed text with every occurrence of the pattern deleted, then
trimmed.  The bbox is the current line's bbox in all three cases, and a
non-matching line leaves the field unchanged. -/
theorem c4_english_label_rules (lines : List OCRLine) (i : Nat) (out out' : NIDFields)
    (h : processLine lines i out = some out') :
    ("name:".data.isPrefixOf ((stripText lines i).data.map pyLower) = true →
      out'.english_name = some ⟨(lineAt lines i).bbox,
        pyStrip (String.mk ((stripText lines i).data.drop "name:".data.length))⟩) ∧
    ("name:".data.isPrefixOf ((stripText lines i).data.map pyLower) = false →
      out'.english_name = out.english_name) ∧
    ((∃ n, (matchDobAt ((stripText lines i).data.drop n)).isSome = true) →
      out'.date_of_birth = some ⟨(lineAt lines i).bbox, pyStrip (dobSubst (stripText lines i))⟩) ∧
    (¬(∃ n, (matchDobAt ((stripText lines i).data.drop n)).isSome = true) →
      out'.date_of_birth = out.date_of_birth) ∧
    ((∃ n, (matchIdnoAt ((stripText lines i).data.drop n)).isSome = true) →
      out'.id_no = some ⟨(lineAt lines i).bbox, pyStrip (idnoSubst (stripText lines i))⟩) ∧
    (¬(∃ n, (matchIdnoAt ((stripText lines i).data.drop n)).isSome = true) →
      out'.id_no = out.id_no) := by
  have he := processLine_eq lines i out out' h
  have hE : out'.english_name = applyHit (hitEnglish lines i) out.english_name := by rw [he]
  have hD : out'.date_of_birth = applyHit (hitDob lines i) out.date_of_birth := by rw [he]
  have hI : out'.id_no = applyHit (hitIdno lines i) out.id_no := by rw [he]
  refine ⟨fun hpre => ?_, fun hpre => ?_, fun hocc => ?_, fun hocc => ?_,
    fun hocc => ?_, fun hocc => ?_⟩
  · have hm : (matchCI "name:".data (stripText lines i).data).isSome = true :=
      (matchCI_isSome_iff _ _).2 hpre
    obtain ⟨r, hr⟩ := Option.isSome_iff_exists.1 hm
    have hrd : r = (stripText lines i).data.drop "name:".data.length :=
      matchCI_eq_drop _ _ _ hr
    have hmatch : nameMatches (stripText lines i) = true := by
      simp only [nameMatches, matchNameAt, isSome_map_wsMunch]
      exact hm
    rw [hE]
    simp only [hitEnglish]
    rw [if_pos hmatch]
    simp only [applyHit, Option.some_inj]
    have hsub : nameSubst (stripText lines i) = String.mk (wsMunch r) := by
      simp only [nameSubst, matchNameAt, hr]
      rfl
    rw [hsub, hrd]
    show FieldRec.mk _ (String.mk (stripL (wsMunch _))) = FieldRec.mk _ (String.mk (stripL _))
    rw [wsMunch, stripL_wsMunch]
  · have hm : nameMatches (stripText lines i) = false := by
      simp only [nameMatches, matchNameAt, isSome_map_wsMunch]
      rw [Bool.eq_false_iff]
      intro hs
      rw [(matchCI_isSome_iff _ _).1 hs] at hpre
      exact Bool.noConfusion hpre
    rw [hE]
    simp only [hitEnglish]
    rw [if_neg (by simp [hm])]
    rfl
  · have hm : dobMatches (stripText lines i) = true :=
      (searchAnywhere_iff matchDobAt _).2 hocc
    rw [hD]
    simp only [hitDob]
    rw [if_pos hm]
    rfl
  · have hm : dobMatches (stripText lines i) = false := by
      rw [Bool.eq_false_iff]
      intro hs
      exact hocc ((searchAnywhere_iff matchDobAt _).1 hs)
    rw [hD]
    simp only [hitDob]
    rw [if_neg (by simp [hm])]
    rfl
  · have hm : idnoMatches (stripText lines i) = true :=
      (searchAnywhere_iff matchIdnoAt _).2 hocc
    rw [hI]
    simp only [hitIdno]
    rw [if_pos hm]
    rfl
  · have hm : idnoMatches (stripText lines i) = false := by
      rw [Bool.eq_false_iff]
      intro hs
      exact hocc ((searchAnywhere_iff matchIdnoAt _).1 hs)
    rw [hI]
    simp only [hitIdno]
    rw [if_neg (by simp [hm])]
    rfl

/-- Witness for C4 at a concrete input: an `ID NO:` line stores the
suffix with the current bbox. -/
theorem c4_witness :
    processLine [⟨some "ID NO: 123", [7, 7, 7, 7]⟩] 0 initFields =
      some ⟨none, none, none, none, none, some ⟨[7, 7, 7, 7], "123"⟩⟩ ∧
    (⟨none, none, none, none, none, some ⟨[7, 7, 7, 7], "123"⟩⟩ : NIDFields).id_no =
      some ⟨[7, 7, 7, 7], "123"⟩ :=
  ⟨by decide,
    ((c4_english_label_rules [⟨some "ID NO: 123", [7, 7, 7, 7]⟩] 0 initFields
          ⟨none, none, none, none, none, some ⟨[7, 7, 7, 7], "123"⟩⟩
          (by decide)).2.2.2.2.1 ⟨0, by decide⟩).trans (by decide)⟩

/-! ## The box renderer (`draw_nid_boxes.py`)

Out-of-scope PIL primitives (rectangle/text painting, cropping) are
modelled as pixel-map transformers; images are total pixel maps.  The
geometry that matters to the claims — which boxes are drawn, that crops
read the original image, the clamp arithmetic — is translated exactly
from the source. -/

/-- The bbox clamp of `draw_boxes_on_image` (source lines 63–68), after
`[int(x) for x in bbox]`. -/
def clampBox (w h x0 y0 x1 y1 : Int) : Int × Int × Int × Int :=
  let cx0 := max 0 (min x0 (w - 1))
  let cy0 := max 0 (min y0 (h - 1))
  let cx1 := max (cx0 + 1) (min x1 w)
  let cy1 := max (cy0 + 1) (min y1 h)
  (cx0, cy0, cx1, cy1)

/-- A non-degenerate box strictly within a `w × h` image. -/
def boxOK (w h : Int) (b : Int × Int × Int × Int) : Prop :=
  0 ≤ b.1 ∧ b.1 < b.2.2.1 ∧ b.2.2.1 ≤ w ∧ 0 ≤ b.2.1 ∧ b.2.1 < b.2.2.2 ∧ b.2.2.2 ≤ h

theorem clampBox_ok (w h x0 y0 x1 y1 : Int) (hw : 0 < w) (hh : 0 < h) :
    boxOK w h (clampBox w h x0 y0 x1 y1) := by
  simp only [clampBox, boxOK]
  refine ⟨by omega, by omega, by omega, by omega, by omega, by omega⟩

/-! ## Claim C5 -/

/-- C5: on a positive-size image, the clamp yields a box with
`0 ≤ x_min < x_max ≤ w` and `0 ≤ y_min < y_max ≤ h` (at least 1×1),
clamping is idempotent, and `[-5, 10, 10000, 20]` on a 500×300 image
clamps to `[0, 10, 500, 20]`. -/
theorem c5_clamp_bounds_idem (w h x0 y0 x1 y1 : Int) (hw : 0 < w) (hh : 0 < h) :
    boxOK w h (clampBox w h x0 y0 x1 y1) ∧
    clampBox w h (clampBox w h x0 y0 x1 y1).1 (clampBox w h x0 y0 x1 y1).2.1
      (clampBox w h x0 y0 x1 y1).2.2.1 (clampBox w h x0 y0 x1 y1).2.2.2 =
      clampBox w h x0 y0 x1 y1 ∧
    clampBox 500 300 (-5) 10 10000 20 = (0, 10, 500, 20) := by
  refine ⟨clampBox_ok w h x0 y0 x1 y1 hw hh, ?_, by decide⟩
  simp only [clampBox, Prod.mk.injEq]
  refine ⟨by omega, by omega, by omega, by omega⟩

/-- Witness for C5 at the spec's concrete scenario. -/
theorem c5_witness :
    boxOK 500 300 (clampBox 500 300 (-5) 10 10000 20) ∧
    clampBox 500 300 (clampBox 500 300 (-5) 10 10000 20).1
      (clampBox 500 300 (-5) 10 10000 20).2.1 (clampBox 500 300 (-5) 10 10000 20).2.2.1
      (clampBox 500 300 (-5) 10 10000 20).2.2.2 = clampBox 500 300 (-5) 10 10000 20 ∧
    clampBox 500 300 (-5) 10 10000 20 = (0, 10, 500, 20) :=
  c5_clamp_bounds_idem 500 300 (-5) 10 10000 20 (by decide) (by decide)

/-! ## Renderer data model and loop -/

/-- An image: a total pixel map to RGB triples (the PIL raster is a
black box; only which image is read/written matters to the claims). -/
def Img : Type := Int → Int → Nat × Nat × Nat

/-- One loaded JSON field entry (`{"bbox": ..., "text": ...}`): only the
bbox is consulted by the renderer; `text` is ignored by the loop. -/
structure JEntry where
  bbox : Option (List Int)
deriving DecidableEq

/-- `FIELD_COLORS`. -/
def FIELD_COLORS : List (String × (Nat × Nat × Nat)) :=
  [("english_name", (255, 100, 100)), ("bangla_name", (100, 200, 255)),
   ("father_name", (100, 255, 150)), ("mother_name", (255, 200, 100)),
   ("date_of_birth", (200, 100, 255)), ("id_no", (100, 255, 255))]

/-- `DEFAULT_COLOR`. -/
def DEFAULT_COLOR : Nat × Nat × Nat := (180, 180, 180)

/-- `BOX_THICKNESS`. -/
def BOX_THICKNESS : Int := 3

/-- `LABEL_HEIGHT`. -/
def LABEL_HEIGHT : Int := 22

/-- `FIELD_COLORS.get(field_name, DEFAULT_COLOR)`. -/
def fieldColor (name : String) : Nat × Nat × Nat :=
  (FIELD_COLORS.lookup name).getD DEFAULT_COLOR

/-- Model of `draw.rectangle(..., outline=color, width=BOX_THICKNESS)`:
paints the outline band. -/
def paintRectOutline (color : Nat × Nat × Nat) (x0 y0 x1 y1 : Int) (im : Img) : Img :=
  fun x y =>
    if (x0 ≤ x ∧ x ≤ x1 ∧ y0 ≤ y ∧ y ≤ y1) ∧
        (x < x0 + BOX_THICKNESS ∨ x1 - BOX_THICKNESS < x ∨
          y < y0 + BOX_THICKNESS ∨ y1 - BOX_THICKNESS < y) then color
    else im x y

/-- Model of the filled label strip `draw.rectangle(..., fill=color)`. -/
def paintRectFill (color : Nat × Nat × Nat) (x0 y0 x1 y1 : Int) (im : Img) : Img :=
  fun x y => if x0 ≤ x ∧ x ≤ x1 ∧ y0 ≤ y ∧ y ≤ y1 then color else im x y

/-- Model of `draw.text((x, y), label, fill=(0,0,0), font=font)`: glyph
rendering is an out-of-scope font capability; the anchor pixel is
painted black. -/
def paintTextMark (x0 y0 : Int) (im : Img) : Img :=
  fun x y => if x = x0 ∧ y = y0 then (0, 0, 0) else im x y

/-- `img.crop((x0, y0, ...))`: the region as its own image, origin
shifted to the box corner. -/
def cropImg (im : Img) (x0 y0 : Int) : Img := fun x y => im (x0 + x) (y0 + y)

/-- The mutable state of the rendering loop: the annotated copy, the
saved crop files (name, clamped box, pixels), the drawn boxes. -/
structure DrawState where
  imgDraw : Img
  crops : List (String × (Int × Int × Int × Int) × Img)
  boxes : List (String × (Int × Int × Int × Int))

/-- The body of `for field_name, item in data.items()`: skip `None`
entries and absent/wrong-length bboxes; otherwise clamp, optionally
crop *from the original image*, then draw the rectangle, the label
strip, and the label text on the annotated copy.  (`not bbox` in the
source only adds the empty list, which `len(bbox) != 4` already
rejects.) -/
def processEntry (w h : Int) (img : Img) (useCrops : Bool) (st : DrawState) :
    String × Option JEntry → DrawState
  | (_, none) => st
  | (name, some item) =>
    match item.bbox with
    | none => st
    | some b =>
      if b.length = 4 then
        let c := clampBox w h (b.getD 0 0) (b.getD 1 0) (b.getD 2 0) (b.getD 3 0)
        let color := fieldColor name
        let st1 := if useCrops then
            { st with crops := st.crops ++ [(name ++ ".png", c, cropImg img c.1 c.2.1)] }
          else st
        let labelY := max 2 (c.2.1 - LABEL_HEIGHT)
        let d1 := paintRectOutline color c.1 c.2.1 c.2.2.1 c.2.2.2 st1.imgDraw
        let d2 := paintRectFill color c.1 labelY c.2.2.1 c.2.1 d1
        let d3 := paintTextMark (c.1 + 4) (labelY + 2) d2
        { imgDraw := d3, crops := st1.crops, boxes := st1.boxes ++ [(name, c)] }
      else st

/-- The renderer output: the one annotated image saved at the end, the
saved crops, and the boxes that were drawn. -/
structure RenderOut where
  annotated : Img
  crops : List (String × (Int × Int × Int × Int) × Img)
  boxes : List (String × (Int × Int × Int × Int))

/-- `draw_boxes_on_image`: `img_draw = img.copy()`, one pass over the
entries, annotated image saved once at the end. -/
def draw_boxes_on_image (w h : Int) (img : Img) (useCrops : Bool)
    (data : List (String × Option JEntry)) : RenderOut :=
  let final := data.foldl (processEntry w h img useCrops) ⟨img, [], []⟩
  ⟨final.imgDraw, final.crops, final.boxes⟩

/-- Modelled from the spec's words (C6): an entry is kept unless it is
null or its bbox is absent or not of length 4. -/
def keepEntry : String × Option JEntry → Bool
  | (_, none) => false
  | (_, some item) =>
    match item.bbox with
    | none => false
    | some b => b.length == 4

/-- The clamped box of a kept entry. -/
def entryClamp (w h : Int) (e : String × Option JEntry) : Int × Int × Int × Int :=
  match e.2 with
  | some item =>
    match item.bbox with
    | some b => clampBox w h (b.getD 0 0) (b.getD 1 0) (b.getD 2 0) (b.getD 3 0)
    | none => (0, 0, 0, 0)
  | none => (0, 0, 0, 0)

/-- The loop appends exactly one drawn box per kept entry, and — when
cropping is requested — one crop per kept entry, cut from the *original*
image `img` at the clamped box. -/
theorem processFold_char (w h : Int) (img : Img) (useCrops : Bool) :
    ∀ (data : List (String × Option JEntry)) (st : DrawState),
      (data.foldl (processEntry w h img useCrops) st).boxes =
        st.boxes ++ (data.filter keepEntry).map (fun e => (e.1, entryClamp w h e)) ∧
      (data.foldl (processEntry w h img useCrops) st).crops =
        st.crops ++ (if useCrops then
          (data.filter keepEntry).map
            (fun e => (e.1 ++ ".png", entryClamp w h e,
              cropImg img (entryClamp w h e).1 (entryClamp w h e).2.1))
          else []) := by
  intro data
  induction data with
  | nil =>
    intro st
    constructor
    · simp
    · cases useCrops <;> simp
  | cons e rest ih =>
    intro st
    rw [List.foldl_cons]
    rcases e with ⟨name, item⟩
    cases item with
    | none =>
      have hskip : processEntry w h img useCrops st (name, none) = st := rfl
      have hfil : List.filter keepEntry ((name, (none : Option JEntry)) :: rest) =
          List.filter keepEntry rest := by
        simp [keepEntry]
      rw [hskip, hfil]
      exact ih st
    | some it =>
      cases hb : it.bbox with
      | none =>
        have hskip : processEntry w h img useCrops st (name, some it) = st := by
          simp only [processEntry, hb]
        have hfil : List.filter keepEntry ((name, some it) :: rest) =
            List.filter keepEntry rest := by
          simp [keepEntry, hb]
        rw [hskip, hfil]
        exact ih st
      | some b =>
        by_cases hlen : b.length = 4
        · have hclamp : entryClamp w h (name, some it) =
              clampBox w h (b.getD 0 0) (b.getD 1 0) (b.getD 2 0) (b.getD 3 0) := by
            simp only [entryClamp, hb]
          have hbx : (processEntry w h img useCrops st (name, some it)).boxes =
              st.boxes ++ [(name, entryClamp w h (name, some it))] := by
            simp only [processEntry, hb, if_pos hlen, hclamp]
            cases useCrops <;> rfl
          have hcr : (processEntry w h img useCrops st (name, some it)).crops =
              st.crops ++ (if useCrops then
                [(name ++ ".png", entryClamp w h (name, some it),
                  cropImg img (entryClamp w h (name, some it)).1
                    (entryClamp w h (name, some it)).2.1)] else []) := by
            simp only [processEntry, hb, if_pos hlen, hclamp]
            cases useCrops <;> simp
          have hfil : List.filter keepEntry ((name, some it) :: rest) =
              (name, some it) :: List.filter keepEntry rest := by
            simp [keepEntry, hb, hlen]
          obtain ⟨ihb, ihc⟩ := ih (processEntry w h img useCrops st (name, some it))
          constructor
          · rw [ihb, hbx, hfil]
            simp [List.append_assoc]
          · rw [ihc, hcr, hfil]
            cases useCrops <;> simp
        · have hskip : processEntry w h img useCrops st (name, some it) = st := by
            simp only [processEntry, hb, if_neg hlen]
          have hfil : List.filter keepEntry ((name, some it) :: rest) =
              List.filter keepEntry rest := by
            simp [keepEntry, hb, hlen]
          rw [hskip, hfil]
          exact ih st

/-! ## Claim C6 -/

/-- C6: per-field data problems never abort the loop: a `null` entry or
an absent/wrong-length bbox is silently skipped, and every remaining
entry is clamped, cropped once, and drawn once — the drawn boxes are
exactly the clamped boxes of the kept entries (so the loop degrades to
fewer boxes, never a crash), every drawn box is valid for the
out-of-scope raster primitives, and there is one saved crop per drawn
box. -/
theorem c6_malformed_entries_skipped (w h : Int) (img : Img)
    (data : List (String × Option JEntry)) (hw : 0 < w) (hh : 0 < h) :
    (draw_boxes_on_image w h img true data).boxes =
      (data.filter keepEntry).map (fun e => (e.1, entryClamp w h e)) ∧
    (draw_boxes_on_image w h img true data).crops.length =
      (draw_boxes_on_image w h img true data).boxes.length ∧
    ∀ nb ∈ (draw_boxes_on_image w h img true data).boxes, boxOK w h nb.2 := by
  obtain ⟨hbx, hcr⟩ := processFold_char w h img true data ⟨img, [], []⟩
  have hbx' : (draw_boxes_on_image w h img true data).boxes =
      (data.filter keepEntry).map (fun e => (e.1, entryClamp w h e)) := by
    show (data.foldl (processEntry w h img true) ⟨img, [], []⟩).boxes = _
    rw [hbx]
    simp
  have hcr' : (draw_boxes_on_image w h img true data).crops =
      (data.filter keepEntry).map
        (fun e => (e.1 ++ ".png", entryClamp w h e,
          cropImg img (entryClamp w h e).1 (entryClamp w h e).2.1)) := by
    show (data.foldl (processEntry w h img true) ⟨img, [], []⟩).crops = _
    rw [hcr]
    simp
  refine ⟨hbx', ?_, ?_⟩
  · rw [hcr', hbx']
    simp
  · intro nb hnb
    rw [hbx'] at hnb
    obtain ⟨e, he, rfl⟩ := List.mem_map.1 hnb
    have hk : keepEntry e = true := (List.mem_filter.1 he).2
    rcases e with ⟨name, item⟩
    cases item with
    | none => exact absurd hk (by simp [keepEntry])
    | some it =>
      cases hb : it.bbox with
      | none => rw [show keepEntry (name, some it) = false by simp [keepEntry, hb]] at hk
                exact Bool.noConfusion hk
      | some b =>
        show boxOK w h (entryClamp w h (name, some it))
        rw [show entryClamp w h (name, some it) =
          clampBox w h (b.getD 0 0) (b.getD 1 0) (b.getD 2 0) (b.getD 3 0) by
            simp only [entryClamp, hb]]
        exact clampBox_ok w h _ _ _ _ hw hh

/-- A concrete image for witnesses and counterexamples. -/
def constImg : Img := fun _ _ => (0, 0, 0)

/-- A field mapping with one well-formed entry, a null entry, an entry
with no bbox, and an entry with a wrong-length bbox. -/
def c6Data : List (String × Option JEntry) :=
  [("english_name", some ⟨some [1, 1, 3, 3]⟩), ("bangla_name", none),
   ("id_no", some ⟨none⟩), ("father_name", some ⟨some [1, 2, 3]⟩)]

/-- Witness for C6 at `c6Data`. -/
theorem c6_witness :
    (draw_boxes_on_image 10 10 constImg true c6Data).boxes =
      (c6Data.filter keepEntry).map (fun e => (e.1, entryClamp 10 10 e)) ∧
    (draw_boxes_on_image 10 10 constImg true c6Data).crops.length =
      (draw_boxes_on_image 10 10 constImg true c6Data).boxes.length ∧
    ∀ nb ∈ (draw_boxes_on_image 10 10 constImg true c6Data).boxes, boxOK 10 10 nb.2 :=
  c6_malformed_entries_skipped 10 10 constImg c6Data (by decide) (by decide)

/-! ## Claim C8 -/

/-- C8: every saved crop is cut from the *input* image `img` — the
parameter the annotated copy was forked from before the loop — at the
clamped box of its entry: the crop list is exactly the box list mapped
through `cropImg img`.  Rectangles and label strips are painted only on
the `imgDraw` component, which no crop reads, so no drawing artifact
from any field can appear in any crop, whatever the processing order. -/
theorem c8_crops_from_original (w h : Int) (img : Img)
    (data : List (String × Option JEntry)) :
    (draw_boxes_on_image w h img true data).crops =
      ((draw_boxes_on_image w h img true data).boxes).map
        (fun nb => (nb.1 ++ ".png", nb.2, cropImg img nb.2.1 nb.2.2.1)) := by
  obtain ⟨hbx, hcr⟩ := processFold_char w h img true data ⟨img, [], []⟩
  show (data.foldl (processEntry w h img true) ⟨img, [], []⟩).crops =
    ((data.foldl (processEntry w h img true) ⟨img, [], []⟩).boxes).map _
  rw [hbx, hcr]
  simp [List.map_map]

/-! ## Claim C9 -/

/-- The greatest index of a dot in the name (Python `name.rfind(".")`,
as an `Option`). -/
def lastDotIdx (cs : List Char) : Option Nat :=
  (List.range cs.length).foldl (fun acc k => if cs.getD k ' ' = '.' then some k else acc) none

/-- `Path(name).stem` (CPython): the name minus its suffix; a suffix
exists exactly when the last dot sits at an index `i` with
`0 < i < len(name) - 1`. -/
def pyStem (nm : String) : String :=
  match lastDotIdx nm.data with
  | some k => if 0 < k ∧ k + 1 < nm.data.length then String.mk (nm.data.take k) else nm
  | none => nm

/-- `main`: `output_path = image_path.parent / f"<stem>_boxes.png"` —
the suffix `.png` is hard-coded. -/
def annotatedFileName (imageName : String) : String := pyStem imageName ++ "_boxes.png"

/-- `main`: `crops_dir = image_path.parent / f"<stem>_crops"`. -/
def cropsDirName (imageName : String) : String := pyStem imageName ++ "_crops"

/-- C9 counterexample: the claim says the annotated file keeps the
input's format (`<stem>_boxes` with the input extension) and crops are
named `<field_name>.<ext>` with the input's extension.  For a `.jpg`
input the code emits `arafat_boxes.png` (not `arafat_boxes.jpg`) and
`english_name.png` (not `english_name.jpg`): both suffixes are
hard-coded `.png`. -/
theorem c9_counterexample :
    annotatedFileName "arafat.jpg" = "arafat_boxes.png" ∧
    ("arafat_boxes.png" : String) ≠ "arafat_boxes" ++ ".jpg" ∧
    ((draw_boxes_on_image 10 10 constImg true
        [("english_name", some ⟨some [1, 1, 3, 3]⟩)]).crops.map (fun cr => cr.1)) =
      ["english_name.png"] ∧
    ("english_name.png" : String) ≠ "english_name" ++ ".jpg" := by
  refine ⟨by decide, by decide, ?_, by decide⟩
  obtain ⟨hbx, hcr⟩ := processFold_char 10 10 constImg true
    [("english_name", some ⟨some [1, 1, 3, 3]⟩)] ⟨constImg, [], []⟩
  show ((List.foldl (processEntry 10 10 constImg true) ⟨constImg, [], []⟩
    [("english_name", some ⟨some [1, 1, 3, 3]⟩)]).crops).map (fun cr => cr.1) = _
  rw [hcr]
  simp
  rfl

/-- C9 amended: the renderer persists exactly one annotated image, always
PNG-named `<stem>_boxes.png` regardless of the input image's extension,
and, when cropping is requested, one crop per kept field entry, named
`<field_name>.png`. -/
theorem c9_output_names (imageName : String) (w h : Int) (img : Img)
    (data : List (String × Option JEntry)) :
    annotatedFileName imageName = pyStem imageName ++ "_boxes.png" ∧
    (draw_boxes_on_image w h img true data).crops.map (fun cr => cr.1) =
      (data.filter keepEntry).map (fun e => e.1 ++ ".png") := by
  refine ⟨rfl, ?_⟩
  obtain ⟨hbx, hcr⟩ := processFold_char w h img true data ⟨img, [], []⟩
  show ((data.foldl (processEntry w h img true) ⟨img, [], []⟩).crops).map (fun cr => cr.1) = _
  rw [hcr]
  simp [List.map_map]

end NIDOCR
